import Mathlib

/-!
# Verification of the int4_gemm Triton kernel

Shallow embedding of `torchbenchmark/operators/int4_gemm/kernel.py` and proofs
about it.  The embedding follows the *active* code of the file:

* `matmul_kernel` (the Triton JIT kernel): grouped tile scheduling, the blocked
  K-reduction with its load masks and wraparound offsets, the
  `USE_INT8_WEIGHT` branch, and the masked store.  Floating-point arithmetic
  (bfloat16 inputs, float32 accumulation) is idealized as exact arithmetic
  over `ℚ`; every widening cast (`int8`/`bfloat16` to `float32`, accumulator
  to `bfloat16`) is value-preserving in this idealization.
* `matmul` (the host driver): its validation, its dispatch decision
  (precompiled `.ttgir` kernel versus the autotuned JIT kernel), the grid
  size, and the argument lists it passes.
* `pack_2xint4`: the row-pairing int4 packer, with `int8` two's-complement
  semantics made explicit on `ℤ`.

The nibble dequantization that appears *commented out* inside
`matmul_kernel` (triple-quoted block, lines 119-135 of the source) is also
embedded (`unpackLo`, `unpackHi`), clearly separated from the active code, so
that claims about dequantization can be compared against what the active
kernel really does.
-/

namespace Int4Gemm

/-- Ceiling division, Triton's `tl.cdiv` / `triton.cdiv`. -/
def cdiv (a b : ℕ) : ℕ := (a + b - 1) / b

/-- Group index of a program id: kernel line
`group_id = pid // num_pid_in_group` with
`num_pid_in_group = GROUP_SIZE_M * num_pid_n`. -/
def groupId (numPidN G pid : ℕ) : ℕ := pid / (G * numPidN)

/-- First row-tile of a program id's group: kernel line
`first_pid_m = group_id * GROUP_SIZE_M`. -/
def firstPidM (numPidN G pid : ℕ) : ℕ := groupId numPidN G pid * G

/-- Effective size of a program id's group (the last group may be short):
kernel line `group_size_m = min(num_pid_m - first_pid_m, GROUP_SIZE_M)`. -/
def groupSizeM (numPidM numPidN G pid : ℕ) : ℕ :=
  min (numPidM - firstPidM numPidN G pid) G

/-- Grouped mapping from a linear program id `pid` to the 2-D tile coordinate
`(pid_m, pid_n)`: kernel lines
`pid_m = first_pid_m + (pid % group_size_m)` and
`pid_n = (pid % num_pid_in_group) // group_size_m`. -/
def tileCoord (numPidM numPidN G pid : ℕ) : ℕ × ℕ :=
  (firstPidM numPidN G pid + pid % groupSizeM numPidM numPidN G pid,
   (pid % (G * numPidN)) / groupSizeM numPidM numPidN G pid)

/-- The weight transform actually applied each reduction step (kernel lines
137-140): `b_f16 = b.to(tl.bfloat16) if USE_INT8_WEIGHT else b`.  Both
branches are value-preserving in the exact-arithmetic model (an `int8` value
converts to `bfloat16` exactly), and neither extracts nibbles: each loaded
byte contributes exactly one lane with its full value. -/
def bTransform : Bool → ℚ → ℚ
  | true, v => v
  | false, v => v

/-- One element of the A slab loaded at reduction step `step`, row `j`,
column `ml` of the (transposed) activation block: kernel line 117,
`tl.load(a_ptrs, mask=offs_ak[:, None] < K - k * BLOCK_SIZE_K, other=0.0)`
with `a_ptrs = a_ptr + offs_am[None, :] * stride_am + offs_ak[:, None] *
stride_ak` advanced by `step * BLOCK_SIZE_K * stride_ak`; row offsets are
wrapped modulo `M` (`offs_am = (pid_m * BLOCK_SIZE_M + arange) % M`).
The mask comparison happens on signed 32-bit values, modelled in `ℤ`. -/
def aLoad (A : ℕ → ℕ → ℚ) (M K BM BK pidm step j ml : ℕ) : ℚ :=
  if (j : ℤ) < (K : ℤ) - ((step * BK : ℕ) : ℤ) then
    A ((pidm * BM + ml) % M) (step * BK + j)
  else 0

/-- One element of the B slab loaded at reduction step `step`, row `nl`,
column `j` of the weight block: kernel line 118, the unmasked `tl.load(b_ptrs)`
with `b_ptrs = b_ptr + offs_bk[None, :] * stride_bk + offs_bn[:, None] *
stride_bn` advanced by `step * BLOCK_SIZE_K * stride_bk`; column offsets are
wrapped modulo `N` (`offs_bn = (pid_n * BLOCK_SIZE_N + arange) % N`).  For a
row-major `K×N` buffer this address holds element
`B (step*BK + j) ((pid_n*BN + nl) % N)`. -/
def bLoad (B : ℕ → ℕ → ℚ) (N BN BK pidn step nl j : ℕ) : ℚ :=
  B (step * BK + j) ((pidn * BN + nl) % N)

/-- Flat pointer offset of the element of B read at reduction step `step`,
row `nl`, column `j` of the slab (same addressing as `bLoad`, kept as raw
stride arithmetic for the in-bounds proof): kernel lines 97, 105, 118, 145. -/
def bLoadAddr (N BN BK strideBk strideBn pidn step j nl : ℕ) : ℕ :=
  (step * BK + j) * strideBk + ((pidn * BN + nl) % N) * strideBn

/-- Final accumulator entry at position `(nl, ml)` of the `BLOCK_SIZE_N ×
BLOCK_SIZE_M` accumulator after all `cdiv K BLOCK_SIZE_K` reduction steps:
kernel lines 114-145, `accumulator += tl.dot(b_f16, a)` starting from
`tl.zeros((BLOCK_SIZE_N, BLOCK_SIZE_M), dtype=tl.float32)`.
The `tl.dot` contracts over the `BLOCK_SIZE_K` axis:
`dot(b, a)[nl, ml] = Σ_j b[nl, j] * a[j, ml]`. -/
def tileAcc (A B : ℕ → ℕ → ℚ) (M N K BM BN BK : ℕ) (useInt8 : Bool)
    (pidm pidn nl ml : ℕ) : ℚ :=
  ∑ step ∈ Finset.range (cdiv K BK), ∑ j ∈ Finset.range BK,
    bTransform useInt8 (bLoad B N BN BK pidn step nl j) *
      aLoad A M K BM BK pidm step j ml

/-- Membership of output cell `(m, n)` in the store footprint of the tile at
coordinate `(pm, pn)`: the cell lies in the tile's rectangle and the boundary
mask `(offs_cm < M) & (offs_cn < N)` holds (kernel lines 149-154; the store
offsets `offs_cm = pid_m * BLOCK_SIZE_M + arange`, `offs_cn = pid_n *
BLOCK_SIZE_N + arange` are not wrapped). -/
abbrev inTile (M N BM BN pm pn m n : ℕ) : Prop :=
  pm * BM ≤ m ∧ m < pm * BM + BM ∧ pn * BN ≤ n ∧ n < pn * BN + BN ∧ m < M ∧ n < N

/-- Cell `(m, n)` is written by program instance `pid`: the device assert
`K % BLOCK_SIZE_K == 0` (kernel line 73) passed, and some in-mask element
`(ml, nl)` of the store block addresses the cell (kernel line 155,
`tl.store(c_ptrs, c, mask=c_mask)` with
`c_mask = (offs_cm[None, :] < M) & (offs_cn[:, None] < N)`). -/
abbrev writesCell (M N K BM BN BK G pid m n : ℕ) : Prop :=
  K % BK = 0 ∧ ∃ ml < BM, ∃ nl < BN,
    m = (tileCoord (cdiv M BM) (cdiv N BN) G pid).1 * BM + ml ∧
    n = (tileCoord (cdiv M BM) (cdiv N BN) G pid).2 * BN + nl ∧
    m < M ∧ n < N

/-- Effect of one program instance on the output matrix.  The instance first
executes `tl.device_assert(K % BLOCK_SIZE_K == 0)` (kernel line 73); if the
assert fails the instance aborts before computing or storing anything.
Otherwise it computes its tile coordinate, runs the reduction loop, casts the
accumulator to `bfloat16` (exact in this model) and stores the accumulator
under the boundary mask.  The stored value for cell `(m, n)` is accumulator
entry `(nl, ml) = (n - pn*BN, m - pm*BM)`, matching the store addressing
`c_ptrs = c_ptr + stride_cm * offs_cm[None, :] + stride_cn * offs_cn[:, None]`
of a row-major `M×N` output. -/
def instanceRun (A B : ℕ → ℕ → ℚ) (M N K BM BN BK G : ℕ) (useInt8 : Bool)
    (pid : ℕ) (C : ℕ → ℕ → ℚ) : ℕ → ℕ → ℚ := fun m n =>
  if K % BK = 0 ∧
      inTile M N BM BN (tileCoord (cdiv M BM) (cdiv N BN) G pid).1
        (tileCoord (cdiv M BM) (cdiv N BN) G pid).2 m n then
    tileAcc A B M N K BM BN BK useInt8
      (tileCoord (cdiv M BM) (cdiv N BN) G pid).1
      (tileCoord (cdiv M BM) (cdiv N BN) G pid).2
      (n - (tileCoord (cdiv M BM) (cdiv N BN) G pid).2 * BN)
      (m - (tileCoord (cdiv M BM) (cdiv N BN) G pid).1 * BM)
  else C m n

/-- One fold step of the grid execution: the buffer after instance `pid`
has run on buffer state `C`. -/
def gridStep (A B : ℕ → ℕ → ℚ) (M N K BM BN BK G : ℕ) (useInt8 : Bool)
    (C : ℕ → ℕ → ℚ) (pid : ℕ) : ℕ → ℕ → ℚ :=
  instanceRun A B M N K BM BN BK G useInt8 pid C

/-- The whole dispatch: one program instance per linear id on the grid
`triton.cdiv(M, BLOCK_SIZE_M) * triton.cdiv(N, BLOCK_SIZE_N)` (host lines
165-167), each instance updating the output buffer, which starts as the
arbitrary contents `C0` of the freshly allocated `torch.empty` buffer.
Instances write disjoint cells, so any execution order yields this result;
we fold in pid order. -/
def runGrid (A B : ℕ → ℕ → ℚ) (M N K BM BN BK G : ℕ) (useInt8 : Bool)
    (C0 : ℕ → ℕ → ℚ) : ℕ → ℕ → ℚ :=
  (List.range (cdiv M BM * cdiv N BN)).foldl
    (gridStep A B M N K BM BN BK G useInt8) C0

/-- Reference dense matrix product entry, `(A · B)[m, n]`. -/
def refMatmul (A B : ℕ → ℕ → ℚ) (K m n : ℕ) : ℚ :=
  ∑ k ∈ Finset.range K, A m k * B k n

/-- Two's-complement wrap of an integer to the `int8` range `[-128, 128)`,
the effect of `t.to(torch.int8)` and of `int8` arithmetic in
`pack_2xint4`. -/
def toInt8 (z : ℤ) : ℤ := (z + 128) % 256 - 128

/-- The byte built by `pack_2xint4` from low element `x` and high element
`y`: `(t[0] & 0xF) | (t[1] << 4)` on `int8` operands.  `t[0] & 0xF` has bit
pattern `x % 16` (low nibble, sign bit cleared); `t[1] << 4` wraps to the
`int8` pattern `(y * 16) % 256` (low four bits zero); the bitwise OR of the
two disjoint patterns is their sum, reinterpreted as a signed byte. -/
def packByte (x y : ℤ) : ℤ := toInt8 (x % 16 + (y * 16) % 256)

/-- A rectangular integer matrix with explicit shape, standing for a torch
tensor of signed integers. -/
structure IntMat where
  rows : ℕ
  cols : ℕ
  entry : ℕ → ℕ → ℤ

/-- The packer (source lines 209-212):
`t = t.to(torch.int8).reshape(t.shape[0] // 2, 2, t.shape[1]).permute(1, 0, 2)`
followed by `(t[0] & 0xF) | (t[1] << 4)`.  The row-major reshape sends
element `(i, j, n)` of the `(K//2, 2, N)` view to original element
`(2*i + j, n)`, and the permute selects `t[j][i][n] = orig[2*i + j][n]`, so
the output byte at `(i, n)` combines the two consecutive K-rows `2*i` and
`2*i + 1` at column `n`. -/
def pack_2xint4 (t : IntMat) : IntMat :=
  { rows := t.rows / 2
    cols := t.cols
    entry := fun i n => packByte (t.entry (2 * i) n) (t.entry (2 * i + 1) n) }

/-- Low-lane dequantization from the commented-out kernel block (source lines
125-126, `b_lo = (b << _4_i8) >> _4_i8`) and spec section 4.3: shift the byte
left by 4 in `int8` (wrapping), then arithmetic-shift right by 4
(floor division by 16, which Lean's `Int` division performs for this
positive divisor), sign-extending the low nibble. -/
def unpackLo (b : ℤ) : ℤ := toInt8 (b * 16) / 16

/-- High-lane dequantization from the commented-out kernel block (source line
127, `b_hi = b >> _4_i8`) and spec section 4.3: arithmetic shift right by 4
of the `int8` value, i.e. floor division by 16. -/
def unpackHi (b : ℤ) : ℤ := toInt8 b / 16

/-- The 4×2 signed matrix `[[1, -2], [3, -4], [5, -6], [7, -8]]` of the
packing scenario. -/
def exMat : IntMat :=
  { rows := 4
    cols := 2
    entry := fun i n =>
      match i, n with
      | 0, 0 => 1 | 0, 1 => -2
      | 1, 0 => 3 | 1, 1 => -4
      | 2, 0 => 5 | 2, 1 => -6
      | 3, 0 => 7 | 3, 1 => -8
      | _, _ => 0 }

/-- What the host `matmul` dispatches: either the precompiled `.ttgir` kernel
loaded from a fixed filesystem path (with an explicit 3-D grid and the list
of stride arguments it passes), or the autotuned JIT `matmul_kernel` (with
its linear grid, stride arguments and the `USE_INT8_WEIGHT` flag). -/
inductive Dispatch where
  | precompiled (path : String) (gridX gridY gridZ : ℕ) (strideArgs : List ℕ)
  | jitKernel (grid : ℕ) (strideArgs : List ℕ) (useInt8Weight : Bool)
deriving DecidableEq

/-- The dispatch decision of `matmul` (host lines 164-201) for a contiguous
`M×K` activation `a`, a contiguous `K'×N` weight `b` and a fresh `M×N`
output `c`, so `a.stride(0) = K`, `a.stride(1) = 1`, `b.stride(0) = N`,
`b.stride(1) = 1`, `c.stride(0) = N`, `c.stride(1) = 1`.  With `use_int16`
the precompiled kernel at the hard-coded path is launched on the grid
`(triton.cdiv(M, 128) * triton.cdiv(N, 256), 1, 1)` and only the three
leading strides are passed (the commented-out `a.stride(1)`, `b.stride(1)`,
`c.stride(1)` arguments are not); otherwise `matmul_kernel` is launched on
`triton.cdiv(M, BLOCK_SIZE_M) * triton.cdiv(N, BLOCK_SIZE_N)` with all six
strides and `USE_INT8_WEIGHT=use_int16`. -/
def matmulDispatch (M N K BM BN : ℕ) (useInt16 : Bool) : Dispatch :=
  if useInt16 then
    .precompiled "/home/dberard/local/scripts/triton/int8mm/int16.ttgir"
      (cdiv M 128 * cdiv N 256) 1 1 [K, N, N]
  else
    .jitKernel (cdiv M BM * cdiv N BN) [K, 1, N, 1, N, 1] useInt16

/-- Outcome of the host driver before any kernel work: either a launch with a
dispatch description, or a failure raised before launch. -/
inductive HostResult where
  | launched (d : Dispatch)
  | failed (msg : String)
deriving DecidableEq

/-- The host driver `matmul` (source lines 158-206) up to its dispatch.
`M, K = a.shape` and `_, N = b.shape`; the row count of `b` is read into `_`
and never used, and the inner-dimension assert
`a.shape[1] == b.shape[0] * 2` is commented out (line 159), so the only
validation performed before launch is `assert a.is_contiguous()`. -/
def matmulHost (aRows aCols bRows bCols : ℕ) (aContiguous useInt16 : Bool)
    (BM BN : ℕ) : HostResult :=
  if aContiguous then
    .launched (matmulDispatch aRows bCols aCols BM BN useInt16)
  else
    .failed "Matrix A must be contiguous"

/-! ## Arithmetic helper lemmas -/

/-- Ceiling division of an exact multiple is plain division. -/
theorem cdiv_eq_div {a b : ℕ} (hb : 0 < b) (h : a % b = 0) : cdiv a b = a / b := by
  obtain ⟨q, rfl⟩ := Nat.dvd_of_mod_eq_zero h
  unfold cdiv
  rw [show b * q + b - 1 = b * q + (b - 1) by omega, Nat.mul_add_div hb,
    Nat.div_eq_of_lt (by omega), Nat.mul_div_cancel_left q hb]
  omega

/-- Every value is covered by `cdiv` blocks. -/
theorem le_cdiv_mul (a b : ℕ) (hb : 0 < b) : a ≤ cdiv a b * b := by
  rcases Nat.eq_zero_or_pos a with rfl | ha
  · exact Nat.zero_le _
  · unfold cdiv
    rw [show a + b - 1 = (a - 1) + b by omega, Nat.add_div_right _ hb]
    have h : a - 1 < b * ((a - 1) / b) + b := by
      conv_lhs => rw [← Nat.div_add_mod (a - 1) b]
      exact Nat.add_lt_add_left (Nat.mod_lt _ hb) _
    calc a ≤ b * ((a - 1) / b) + b := by omega
      _ = ((a - 1) / b + 1) * b := by ring

/-- A nonempty dimension has at least one block. -/
theorem cdiv_pos {a b : ℕ} (ha : 0 < a) (hb : 0 < b) : 0 < cdiv a b := by
  unfold cdiv
  exact Nat.div_pos (by omega) hb

/-- Under the K-divisibility precondition, every index touched by the
reduction loop lies strictly below `K`. -/
theorem step_bound {K BK step j : ℕ} (hBK : 0 < BK) (hK : K % BK = 0)
    (hs : step < cdiv K BK) (hj : j < BK) : step * BK + j < K := by
  rw [cdiv_eq_div hBK hK] at hs
  have h1 : (step + 1) * BK ≤ K / BK * BK := Nat.mul_le_mul_right BK hs
  rw [Nat.div_mul_cancel (Nat.dvd_of_mod_eq_zero hK)] at h1
  calc step * BK + j < (step + 1) * BK := by
        rw [add_mul, one_mul]; exact Nat.add_lt_add_left hj _
    _ ≤ K := h1

/-- Splitting a sum over `s * b` indices into `s` blocks of `b`. -/
theorem sum_range_mul_eq (f : ℕ → ℚ) (s b : ℕ) :
    ∑ k ∈ Finset.range (s * b), f k =
      ∑ step ∈ Finset.range s, ∑ j ∈ Finset.range b, f (step * b + j) := by
  induction s with
  | zero => simp
  | succ s ih =>
      rw [Finset.sum_range_succ, ← ih, Nat.succ_mul, Finset.sum_range_add]

/-! ## Tile-scheduler facts -/

/-- Basic bounds on the grouped-mapping components for a valid program id:
the group starts inside the row range, the (possibly short) group is
nonempty, no larger than `GROUP_SIZE_M`, fits inside the row range, and the
id's offset inside its group is below `group_size_m * num_pid_n`. -/
theorem sched_facts (numM numN G pid : ℕ) (hG : 0 < G)
    (hpid : pid < numM * numN) :
    firstPidM numN G pid < numM ∧
    0 < groupSizeM numM numN G pid ∧
    groupSizeM numM numN G pid ≤ G ∧
    firstPidM numN G pid + groupSizeM numM numN G pid ≤ numM ∧
    pid % (G * numN) < groupSizeM numM numN G pid * numN := by
  have hMN : 0 < numM * numN := lt_of_le_of_lt (Nat.zero_le pid) hpid
  have hN : 0 < numN := Nat.pos_of_ne_zero fun h => by simp [h] at hMN
  have hnig : 0 < G * numN := Nat.mul_pos hG hN
  have hql : groupId numN G pid * (G * numN) ≤ pid := Nat.div_mul_le_self pid (G * numN)
  have hfirst : firstPidM numN G pid < numM := by
    by_contra hcon
    push_neg at hcon
    have h2 : numM * numN ≤ pid := by
      calc numM * numN ≤ firstPidM numN G pid * numN := Nat.mul_le_mul_right _ hcon
        _ = groupId numN G pid * (G * numN) := by unfold firstPidM; ring
        _ ≤ pid := hql
    omega
  have hgsz : 0 < groupSizeM numM numN G pid := lt_min (by omega) hG
  have hgszG : groupSizeM numM numN G pid ≤ G := min_le_right _ _
  have hfits : firstPidM numN G pid + groupSizeM numM numN G pid ≤ numM := by
    have h := min_le_left (numM - firstPidM numN G pid) G
    unfold groupSizeM
    omega
  refine ⟨hfirst, hgsz, hgszG, hfits, ?_⟩
  have hdm : G * numN * (pid / (G * numN)) + pid % (G * numN) = pid :=
    Nat.div_add_mod pid (G * numN)
  have hr1 : pid % (G * numN) < G * numN := Nat.mod_lt _ hnig
  rcases min_cases (numM - firstPidM numN G pid) G with ⟨heq, _⟩ | ⟨heq, _⟩
  · show pid % (G * numN) < groupSizeM numM numN G pid * numN
    unfold groupSizeM
    rw [heq, Nat.sub_mul]
    have hXf : G * numN * (pid / (G * numN)) = firstPidM numN G pid * numN := by
      unfold firstPidM groupId; ring
    rw [hXf] at hdm
    omega
  · show pid % (G * numN) < groupSizeM numM numN G pid * numN
    unfold groupSizeM
    rw [heq]
    calc pid % (G * numN) < G * numN := hr1
      _ = G * numN := rfl

/-- The grouped mapping sends every valid program id to an in-range tile
coordinate (no tile index overflows the grid). -/
theorem tileCoord_lt (numM numN G pid : ℕ) (hG : 0 < G)
    (hpid : pid < numM * numN) :
    (tileCoord numM numN G pid).1 < numM ∧ (tileCoord numM numN G pid).2 < numN := by
  obtain ⟨h1, h2, h3, h4, h5⟩ := sched_facts numM numN G pid hG hpid
  constructor
  · have hm : pid % groupSizeM numM numN G pid < groupSizeM numM numN G pid :=
      Nat.mod_lt _ h2
    simp only [tileCoord]
    omega
  · simp only [tileCoord]
    rw [Nat.div_lt_iff_lt_mul h2]
    calc pid % (G * numN) < groupSizeM numM numN G pid * numN := h5
      _ = numN * groupSizeM numM numN G pid := mul_comm _ _

/-- The row tile-coordinate determines the group index: `pid_m / GROUP_SIZE_M`
recovers `group_id`. -/
theorem fst_div_eq_groupId (numM numN G pid : ℕ) (hG : 0 < G)
    (hpid : pid < numM * numN) :
    (tileCoord numM numN G pid).1 / G = groupId numN G pid := by
  obtain ⟨h1, h2, h3, h4, h5⟩ := sched_facts numM numN G pid hG hpid
  have hm : pid % groupSizeM numM numN G pid < G :=
    lt_of_lt_of_le (Nat.mod_lt _ h2) h3
  simp only [tileCoord, firstPidM]
  exact Nat.div_eq_of_lt_le (Nat.le_add_right _ _)
    (by rw [add_one_mul]; omega)

/-- The grouped mapping is injective on the grid of valid program ids: no
tile is computed by two different instances. -/
theorem tileCoord_inj (numM numN G : ℕ) (hG : 0 < G) :
    ∀ p1, p1 < numM * numN → ∀ p2, p2 < numM * numN →
      tileCoord numM numN G p1 = tileCoord numM numN G p2 → p1 = p2 := by
  intro p1 hp1 p2 hp2 heq
  have hq : groupId numN G p1 = groupId numN G p2 := by
    rw [← fst_div_eq_groupId numM numN G p1 hG hp1,
      ← fst_div_eq_groupId numM numN G p2 hG hp2, congrArg Prod.fst heq]
  have hfirst : firstPidM numN G p1 = firstPidM numN G p2 := by
    unfold firstPidM; rw [hq]
  have hgsz : groupSizeM numM numN G p1 = groupSizeM numM numN G p2 := by
    unfold groupSizeM; rw [hfirst]
  obtain ⟨h1, h2, h3, h4, h5⟩ := sched_facts numM numN G p1 hG hp1
  have hA : p1 % groupSizeM numM numN G p1 = p2 % groupSizeM numM numN G p1 := by
    have hf := congrArg Prod.fst heq
    simp only [tileCoord] at hf
    rw [← hfirst, ← hgsz] at hf
    omega
  have hB : p1 % (G * numN) / groupSizeM numM numN G p1 =
      p2 % (G * numN) / groupSizeM numM numN G p1 := by
    have hs := congrArg Prod.snd heq
    simp only [tileCoord] at hs
    rw [← hgsz] at hs
    exact hs
  -- decompose both ids as group base plus offset
  have hd1 : G * numN * groupId numN G p1 + p1 % (G * numN) = p1 := by
    unfold groupId; exact Nat.div_add_mod p1 (G * numN)
  have hd2 : G * numN * groupId numN G p1 + p2 % (G * numN) = p2 := by
    rw [hq]
    show G * numN * (p2 / (G * numN)) + p2 % (G * numN) = p2
    exact Nat.div_add_mod p2 (G * numN)
  -- the two offsets agree modulo the group size
  have hmod : p1 % (G * numN) % groupSizeM numM numN G p1 =
      p2 % (G * numN) % groupSizeM numM numN G p1 := by
    have hm1 : p1 % groupSizeM numM numN G p1 =
        (G * numN * groupId numN G p1 + p1 % (G * numN)) %
          groupSizeM numM numN G p1 := by rw [hd1]
    have hm2 : p2 % groupSizeM numM numN G p1 =
        (G * numN * groupId numN G p1 + p2 % (G * numN)) %
          groupSizeM numM numN G p1 := by rw [hd2]
    have hcancel : p1 % (G * numN) ≡ p2 % (G * numN)
        [MOD groupSizeM numM numN G p1] := by
      apply Nat.ModEq.add_left_cancel' (G * numN * groupId numN G p1)
      unfold Nat.ModEq
      rw [← hm1, ← hm2]
      exact hA
    exact hcancel
  -- equal quotients and remainders give equal offsets, hence equal ids
  have he1 := Nat.div_add_mod (p1 % (G * numN)) (groupSizeM numM numN G p1)
  have he2 := Nat.div_add_mod (p2 % (G * numN)) (groupSizeM numM numN G p1)
  rw [hB, hmod] at he1
  omega

/-- The grouped mapping reaches every in-range tile coordinate: no tile is
omitted. -/
theorem tileCoord_surj (numM numN G : ℕ) (hG : 0 < G) :
    ∀ r, r < numM → ∀ c, c < numN →
      ∃ pid, pid < numM * numN ∧ tileCoord numM numN G pid = (r, c) := by
  intro r hr c hc
  have hN : 0 < numN := lt_of_le_of_lt (Nat.zero_le c) hc
  have hnig : 0 < G * numN := Nat.mul_pos hG hN
  set g := r / G with hg
  have hfl : g * G ≤ r := Nat.div_mul_le_self r G
  have hfu : r < g * G + G := by
    have hdm := Nat.div_add_mod r G
    have hml := Nat.mod_lt r hG
    rw [mul_comm, ← hg] at hdm
    omega
  set gsz := min (numM - g * G) G with hgszdef
  have hgsz : 0 < gsz := lt_min (by omega) hG
  have hgszG : gsz ≤ G := min_le_right _ _
  have hfits : g * G + gsz ≤ numM := by
    have h := min_le_left (numM - g * G) G
    omega
  have hrfirst : r - g * G < gsz := lt_min (by omega) (by omega)
  set e := g * (G * numN) % gsz with he
  have helt : e < gsz := Nat.mod_lt _ hgsz
  set d := (r - g * G + gsz - e) % gsz with hd
  have hdlt : d < gsz := Nat.mod_lt _ hgsz
  refine ⟨g * (G * numN) + (c * gsz + d), ?_, ?_⟩
  · have h1 : c * gsz + d < (c + 1) * gsz := by rw [add_one_mul]; omega
    have h12 : c * gsz + d < numN * gsz :=
      lt_of_lt_of_le h1 (Nat.mul_le_mul_right _ (by omega))
    have h3 : g * (G * numN) + numN * gsz ≤ numM * numN := by
      calc g * (G * numN) + numN * gsz = (g * G + gsz) * numN := by ring
        _ ≤ numM * numN := Nat.mul_le_mul_right _ hfits
    omega
  · have hx : c * gsz + d < G * numN := by
      have h1 : c * gsz + d < (c + 1) * gsz := by rw [add_one_mul]; omega
      have h2 : (c + 1) * gsz ≤ numN * G := by
        calc (c + 1) * gsz ≤ (c + 1) * G := Nat.mul_le_mul_left _ hgszG
          _ ≤ numN * G := Nat.mul_le_mul_right _ (by omega)
      have h12 := lt_of_lt_of_le h1 h2
      rw [mul_comm G numN]
      exact h12
    have hgid : groupId numN G (g * (G * numN) + (c * gsz + d)) = g := by
      unfold groupId
      rw [add_comm, mul_comm g (G * numN), Nat.add_mul_div_left _ _ hnig,
        Nat.div_eq_of_lt hx, Nat.zero_add]
    have hfirstv : firstPidM numN G (g * (G * numN) + (c * gsz + d)) = g * G := by
      unfold firstPidM; rw [hgid]
    have hgszv : groupSizeM numM numN G (g * (G * numN) + (c * gsz + d)) = gsz := by
      unfold groupSizeM; rw [hfirstv]
    have hmodnig : (g * (G * numN) + (c * gsz + d)) % (G * numN) = c * gsz + d := by
      rw [add_comm, mul_comm g (G * numN), Nat.add_mul_mod_self_left,
        Nat.mod_eq_of_lt hx]
    have hpidmodg : (g * (G * numN) + (c * gsz + d)) % gsz = r - g * G := by
      have s1 : g * (G * numN) + (c * gsz + d) = g * (G * numN) + d + gsz * c := by
        ring
      rw [s1, Nat.add_mul_mod_self_left, Nat.add_mod, ← he,
        Nat.mod_eq_of_lt hdlt, hd, Nat.add_mod_mod,
        show e + (r - g * G + gsz - e) = r - g * G + gsz by omega,
        Nat.add_mod_right, Nat.mod_eq_of_lt hrfirst]
    simp only [tileCoord]
    rw [hfirstv, hgszv, hmodnig, hpidmodg]
    have hpn : (c * gsz + d) / gsz = c := by
      rw [add_comm, mul_comm c gsz, Nat.add_mul_div_left _ _ hgsz,
        Nat.div_eq_of_lt hdlt, Nat.zero_add]
    rw [hpn]
    have hgr : g * G + (r - g * G) = r := by omega
    rw [hgr]

/-! ## Generic fold lemmas for disjoint writers -/

/-- If no id in the list writes the cell, a fold of cell updates leaves the
cell's value unchanged. -/
theorem foldl_no_writer (f : (ℕ → ℕ → ℚ) → ℕ → (ℕ → ℕ → ℚ)) (W : ℕ → Prop)
    (m n : ℕ)
    (hstep_nw : ∀ C pid, ¬ W pid → f C pid m n = C m n) :
    ∀ l : List ℕ, (∀ q ∈ l, ¬ W q) →
      ∀ C : ℕ → ℕ → ℚ, (l.foldl f C) m n = C m n := by
  intro l
  induction l with
  | nil => intro _ C; rfl
  | cons a t ih =>
      intro h C
      rw [List.foldl_cons, ih (fun q hq => h q (List.mem_cons_of_mem a hq)),
        hstep_nw C a (h a (List.mem_cons_self a t))]

/-- If exactly one id in the list writes the cell, and every writer stores
the same value `v` there, the fold ends with `v` at that cell. -/
theorem foldl_single_writer (f : (ℕ → ℕ → ℚ) → ℕ → (ℕ → ℕ → ℚ)) (W : ℕ → Prop)
    (v : ℚ) (m n : ℕ)
    (hstep_w : ∀ C pid, W pid → f C pid m n = v)
    (hstep_nw : ∀ C pid, ¬ W pid → f C pid m n = C m n) :
    ∀ l : List ℕ, ∀ p ∈ l, W p → (∀ q ∈ l, W q → q = p) →
      ∀ C : ℕ → ℕ → ℚ, (l.foldl f C) m n = v := by
  intro l
  induction l with
  | nil => intro p hp; exact absurd hp (List.not_mem_nil p)
  | cons a t ih =>
      intro p hp hw huniq C
      rw [List.foldl_cons]
      by_cases hwa : W a
      · have hap : a = p := huniq a (List.mem_cons_self a t) hwa
        by_cases hpt : p ∈ t
        · exact ih p hpt hw
            (fun q hq hqw => huniq q (List.mem_cons_of_mem a hq) hqw) (f C a)
        · have hnone : ∀ q ∈ t, ¬ W q := by
            intro q hq hqw
            exact hpt (huniq q (List.mem_cons_of_mem a hq) hqw ▸ hq)
          rw [foldl_no_writer f W m n hstep_nw t hnone (f C a)]
          exact hstep_w C a hwa
      · have hpa : p ≠ a := fun h => hwa (h ▸ hw)
        have hpt : p ∈ t := by
          rcases List.mem_cons.mp hp with h | h
          · exact absurd h hpa
          · exact h
        exact ih p hpt hw
          (fun q hq hqw => huniq q (List.mem_cons_of_mem a hq) hqw) (f C a)

/-! ## Per-instance store behavior -/

/-- An instance whose store condition holds at a cell overwrites the cell
with its accumulator entry. -/
theorem instanceRun_writes (A B : ℕ → ℕ → ℚ) (M N K BM BN BK G : ℕ)
    (useInt8 : Bool) (pid m n : ℕ) (C : ℕ → ℕ → ℚ)
    (h : K % BK = 0 ∧
      inTile M N BM BN (tileCoord (cdiv M BM) (cdiv N BN) G pid).1
        (tileCoord (cdiv M BM) (cdiv N BN) G pid).2 m n) :
    instanceRun A B M N K BM BN BK G useInt8 pid C m n =
      tileAcc A B M N K BM BN BK useInt8
        (tileCoord (cdiv M BM) (cdiv N BN) G pid).1
        (tileCoord (cdiv M BM) (cdiv N BN) G pid).2
        (n - (tileCoord (cdiv M BM) (cdiv N BN) G pid).2 * BN)
        (m - (tileCoord (cdiv M BM) (cdiv N BN) G pid).1 * BM) := by
  unfold instanceRun
  exact if_pos h

/-- An instance whose store condition fails at a cell leaves the cell
untouched (either the device assert aborted it, or the cell is outside the
instance's masked tile). -/
theorem instanceRun_skips (A B : ℕ → ℕ → ℚ) (M N K BM BN BK G : ℕ)
    (useInt8 : Bool) (pid m n : ℕ) (C : ℕ → ℕ → ℚ)
    (h : ¬(K % BK = 0 ∧
      inTile M N BM BN (tileCoord (cdiv M BM) (cdiv N BN) G pid).1
        (tileCoord (cdiv M BM) (cdiv N BN) G pid).2 m n)) :
    instanceRun A B M N K BM BN BK G useInt8 pid C m n = C m n := by
  unfold instanceRun
  exact if_neg h

/-- Both branches of the `USE_INT8_WEIGHT` conditional preserve the loaded
value: the int8-to-bfloat16 widening is exact, and neither branch unpacks
nibbles. -/
theorem bTransform_id (b : Bool) (v : ℚ) : bTransform b v = v := by
  cases b <;> rfl

/-- When the cell `(m, n)` is an in-bounds cell of the tile at `(pm, pn)`,
the accumulator entry stored to it equals the reference dot product of row
`m` of A and column `n` of B. -/
theorem tileAcc_eq_ref (A B : ℕ → ℕ → ℚ) (M N K BM BN BK : ℕ) (useInt8 : Bool)
    (pm pn m n : ℕ) (hBK : 0 < BK) (hK : K % BK = 0)
    (hm1 : pm * BM ≤ m) (hmM : m < M) (hn1 : pn * BN ≤ n) (hnN : n < N) :
    tileAcc A B M N K BM BN BK useInt8 pm pn (n - pn * BN) (m - pm * BM) =
      refMatmul A B K m n := by
  unfold tileAcc refMatmul
  have hKeq : cdiv K BK * BK = K := by
    rw [cdiv_eq_div hBK hK, Nat.div_mul_cancel (Nat.dvd_of_mod_eq_zero hK)]
  conv_rhs => rw [← hKeq, sum_range_mul_eq]
  apply Finset.sum_congr rfl
  intro step hstep
  apply Finset.sum_congr rfl
  intro j hj
  rw [Finset.mem_range] at hstep hj
  rw [bTransform_id]
  unfold aLoad bLoad
  have hlt : step * BK + j < K := step_bound hBK hK hstep hj
  rw [if_pos (show (j : ℤ) < (K : ℤ) - ((step * BK : ℕ) : ℤ) by push_cast; omega),
    show pm * BM + (m - pm * BM) = m by omega,
    show pn * BN + (n - pn * BN) = n by omega,
    Nat.mod_eq_of_lt hmM, Nat.mod_eq_of_lt hnN]
  ring

/-- The store condition pins down the tile coordinate: any instance whose
masked store covers cell `(m, n)` computes the tile containing that cell. -/
theorem inTile_coord_eq {M N BM BN pm pn m n : ℕ} (hBM : 0 < BM) (hBN : 0 < BN)
    (h : inTile M N BM BN pm pn m n) : pm = m / BM ∧ pn = n / BN := by
  obtain ⟨h1, h2, h3, h4, h5, h6⟩ := h
  constructor
  · exact (Nat.div_eq_of_lt_le h1 (by rw [add_one_mul]; omega)).symm
  · exact (Nat.div_eq_of_lt_le h3 (by rw [add_one_mul]; omega)).symm

/-- Every in-bounds cell is an in-mask cell of the tile containing it. -/
theorem inTile_self {M N BM BN m n : ℕ} (hBM : 0 < BM) (hBN : 0 < BN)
    (hm : m < M) (hn : n < N) : inTile M N BM BN (m / BM) (n / BN) m n := by
  refine ⟨Nat.div_mul_le_self m BM, ?_, Nat.div_mul_le_self n BN, ?_, hm, hn⟩
  · have hd := Nat.div_add_mod m BM
    have hl := Nat.mod_lt m hBM
    rw [mul_comm] at hd
    omega
  · have hd := Nat.div_add_mod n BN
    have hl := Nat.mod_lt n hBN
    rw [mul_comm] at hd
    omega

/-- The tile index of an in-bounds cell is on the launched grid. -/
theorem div_lt_cdiv {m M B : ℕ} (hB : 0 < B) (hm : m < M) : m / B < cdiv M B := by
  rw [Nat.div_lt_iff_lt_mul hB]
  exact lt_of_lt_of_le hm (le_cdiv_mul M B hB)

/-- C1: for every `M`, `N`, `K` with `K % BLOCK_SIZE_K = 0`, the grid
dispatched by `matmul` on a contiguous `M×K` activation `A` and a dense-mode
`K×N` weight `B` fills every cell of the freshly allocated `M×N` output with
the reference dense product entry `(A · B)[m, n]`, independently of the
uninitialized contents `C0` of the `torch.empty` buffer.  Floating-point
arithmetic is idealized as exact rational arithmetic, under which the
"within bfloat16 rounding tolerance" clause sharpens to exact equality. -/
theorem matmul_dense_correct (A B C0 : ℕ → ℕ → ℚ) (M N K BM BN BK G : ℕ)
    (useInt8 : Bool) (hBM : 0 < BM) (hBN : 0 < BN) (hBK : 0 < BK) (hG : 0 < G)
    (hK : K % BK = 0) (m n : ℕ) (hm : m < M) (hn : n < N) :
    runGrid A B M N K BM BN BK G useInt8 C0 m n = refMatmul A B K m n := by
  have hpmlt : m / BM < cdiv M BM := div_lt_cdiv hBM hm
  have hpnlt : n / BN < cdiv N BN := div_lt_cdiv hBN hn
  obtain ⟨p, hplt, hpcoord⟩ :=
    tileCoord_surj (cdiv M BM) (cdiv N BN) G hG (m / BM) hpmlt (n / BN) hpnlt
  have hfold : runGrid A B M N K BM BN BK G useInt8 C0 m n =
      tileAcc A B M N K BM BN BK useInt8 (m / BM) (n / BN)
        (n - n / BN * BN) (m - m / BM * BM) := by
    unfold runGrid
    apply foldl_single_writer (gridStep A B M N K BM BN BK G useInt8)
      (fun pid => K % BK = 0 ∧ inTile M N BM BN
        (tileCoord (cdiv M BM) (cdiv N BN) G pid).1
        (tileCoord (cdiv M BM) (cdiv N BN) G pid).2 m n)
      _ m n ?_ ?_ (List.range (cdiv M BM * cdiv N BN)) p
      (List.mem_range.mpr hplt) ?_ ?_
    · intro C pid hpid
      obtain ⟨hc1, hc2⟩ := inTile_coord_eq hBM hBN hpid.2
      show instanceRun A B M N K BM BN BK G useInt8 pid C m n = _
      rw [instanceRun_writes A B M N K BM BN BK G useInt8 pid m n C hpid,
        hc1, hc2]
    · intro C pid hpid
      exact instanceRun_skips A B M N K BM BN BK G useInt8 pid m n C hpid
    · rw [hpcoord]
      exact ⟨hK, inTile_self hBM hBN hm hn⟩
    · intro q hq hqw
      obtain ⟨e1, e2⟩ := inTile_coord_eq hBM hBN hqw.2
      refine tileCoord_inj (cdiv M BM) (cdiv N BN) G hG q
        (List.mem_range.mp hq) p hplt ?_
      rw [hpcoord]
      exact Prod.ext e1 e2
  rw [hfold]
  exact tileAcc_eq_ref A B M N K BM BN BK useInt8 (m / BM) (n / BN) m n
    hBK hK (Nat.div_mul_le_self m BM) hm (Nat.div_mul_le_self n BN) hn

/-- Witness for C1 at `M = N = K = 1` with all block sizes 1, constant
matrices `A = 2`, `B = 3`, arbitrary initial buffer contents `0`. -/
theorem matmul_dense_correct_witness :
    runGrid (fun _ _ => (2 : ℚ)) (fun _ _ => 3) 1 1 1 1 1 1 1 false
      (fun _ _ => 0) 0 0 = refMatmul (fun _ _ => (2 : ℚ)) (fun _ _ => 3) 1 0 0 :=
  matmul_dense_correct (fun _ _ => (2 : ℚ)) (fun _ _ => 3) (fun _ _ => 0)
    1 1 1 1 1 1 1 false (by decide) (by decide) (by decide) (by decide)
    (by decide) 0 0 (by decide) (by decide)

/-- C2: for every `numTilesM`, `numTilesN` and every `GROUP_SIZE_M > 0`, the
grouped mapping from linear id `pid` in `[0, numTilesM * numTilesN)` to the
tile coordinate `(pid_m, pid_n)` is a bijection onto
`[0, numTilesM) × [0, numTilesN)`: no tile is omitted and none is duplicated,
including when the last group is short. -/
theorem tile_mapping_bijective (numM numN G : ℕ) (hG : 0 < G) :
    Set.BijOn (tileCoord numM numN G) (Set.Iio (numM * numN))
      (Set.Iio numM ×ˢ Set.Iio numN) := by
  refine ⟨?_, ?_, ?_⟩
  · intro pid hpid
    obtain ⟨h1, h2⟩ := tileCoord_lt numM numN G pid hG (Set.mem_Iio.mp hpid)
    exact Set.mem_prod.mpr ⟨Set.mem_Iio.mpr h1, Set.mem_Iio.mpr h2⟩
  · intro p1 hp1 p2 hp2 heq
    exact tileCoord_inj numM numN G hG p1 (Set.mem_Iio.mp hp1)
      p2 (Set.mem_Iio.mp hp2) heq
  · intro rc hrc
    obtain ⟨h1, h2⟩ := Set.mem_prod.mp hrc
    obtain ⟨pid, hpid, hcoord⟩ := tileCoord_surj numM numN G hG rc.1
      (Set.mem_Iio.mp h1) rc.2 (Set.mem_Iio.mp h2)
    exact ⟨pid, Set.mem_Iio.mpr hpid, by rw [hcoord]⟩

/-- Witness for C2 at the spec scenario `numTilesM = 10`, `numTilesN = 4`,
`GROUP_SIZE_M = 3` (a short last group of one row-tile). -/
theorem tile_mapping_bijective_witness :
    Set.BijOn (tileCoord 10 4 3) (Set.Iio (10 * 4))
      (Set.Iio 10 ×ˢ Set.Iio 4) :=
  tile_mapping_bijective 10 4 3 (by decide)

/-- C3 counterexample: the active kernel performs no nibble dequantization.
The byte `-31` (bit pattern `0xE1`, which `pack_2xint4` produces for the
int4 pair `(1, -2)`) is consumed by the kernel as the single value `-31`:
on a 1×1 problem with `A = 1` the output is `-31`.  Had the kernel
dequantized as claimed (low nibble sign-extended, high nibble
arithmetic-shifted, both lanes multiplied into the accumulator), the two
lanes `1` and `-2` against activations `1` would give `1 * 1 + (-2) * 1 =
-1 ≠ -31`. -/
theorem kernel_no_dequant_counterexample :
    runGrid (fun _ _ => (1 : ℚ)) (fun _ _ => (-31 : ℚ)) 1 1 1 1 1 1 1 true
      (fun _ _ => 0) 0 0 = -31 ∧
    packByte 1 (-2) = -31 ∧ unpackLo (-31) = 1 ∧ unpackHi (-31) = -2 ∧
    (1 : ℚ) * 1 + (-2) * 1 ≠ -31 := by
  refine ⟨?_, by decide, by decide, by decide, by norm_num⟩
  norm_num [runGrid, gridStep, instanceRun, tileAcc, aLoad, bLoad, bTransform,
    tileCoord, groupSizeM, firstPidM, groupId, cdiv, inTile,
    Finset.sum_range_one, List.range_succ]

/-- C3 amended: the kernel performs no packed-mode dequantization at all —
the mask-then-sign-extend / shift / interleave steps exist only inside a
commented-out block.  In the active code each loaded weight byte contributes
exactly one lane carrying its full 8-bit value (`b.to(tl.bfloat16)` when
`USE_INT8_WEIGHT` is set, the raw value otherwise — both value-preserving),
so the computed result is identical for both settings of the flag. -/
theorem kernel_no_dequantization (useInt8 : Bool) (v : ℚ)
    (A B C0 : ℕ → ℕ → ℚ) (M N K BM BN BK G : ℕ) :
    bTransform useInt8 v = v ∧
    runGrid A B M N K BM BN BK G true C0 =
      runGrid A B M N K BM BN BK G false C0 :=
  ⟨bTransform_id useInt8 v, rfl⟩

/-- C4 counterexample: packing `[[1,-2],[3,-4],[5,-6],[7,-8]]` with
`pack_2xint4` pairs consecutive rows along K, so entry `[0][0]` combines
`1` (element `[0][0]`) and `3` (element `[1][0]`) into the byte `0x31 = 49`
— not `0xE1` (the signed byte `-31`, which would encode low nibble `1` and
high nibble `-2` as the claim states). -/
theorem pack_scenario_counterexample :
    (pack_2xint4 exMat).entry 0 0 = 49 ∧
    (pack_2xint4 exMat).entry 0 0 ≠ -31 ∧
    unpackHi ((pack_2xint4 exMat).entry 0 0) = 3 ∧
    unpackLo ((pack_2xint4 exMat).entry 0 0) = 1 := by
  refine ⟨by decide, by decide, by decide, by decide⟩

/-- C4 amended: packing the 4×2 signed matrix `[[1,-2],[3,-4],[5,-6],[7,-8]]`
yields a 2×2 byte matrix whose `[0][0]` entry encodes low nibble `1`
(element `[0][0]`) and high nibble `3` (element `[1][0]`), i.e. the byte
`0x31`, and nibble-unpacking every byte (sign-extending the low nibble,
arithmetic-shifting the high nibble) reconstructs the original values
exactly. -/
theorem pack_scenario_amended :
    (pack_2xint4 exMat).rows = 2 ∧ (pack_2xint4 exMat).cols = 2 ∧
    (pack_2xint4 exMat).entry 0 0 = 49 ∧
    unpackLo ((pack_2xint4 exMat).entry 0 0) = exMat.entry 0 0 ∧
    unpackHi ((pack_2xint4 exMat).entry 0 0) = exMat.entry 1 0 ∧
    unpackLo ((pack_2xint4 exMat).entry 0 1) = exMat.entry 0 1 ∧
    unpackHi ((pack_2xint4 exMat).entry 0 1) = exMat.entry 1 1 ∧
    unpackLo ((pack_2xint4 exMat).entry 1 0) = exMat.entry 2 0 ∧
    unpackHi ((pack_2xint4 exMat).entry 1 0) = exMat.entry 3 0 ∧
    unpackLo ((pack_2xint4 exMat).entry 1 1) = exMat.entry 2 1 ∧
    unpackHi ((pack_2xint4 exMat).entry 1 1) = exMat.entry 3 1 := by
  decide

/-- C5: `pack_2xint4` on a `K×N` signed matrix yields shape `(K/2)×N`,
pairing consecutive rows along K; each output byte has low-nibble bit field
equal to the low 4 bits of element `t[2i][n]` and high-nibble bit field
equal to the low 4 bits of element `t[2i+1][n]`; the result is a valid
signed byte; and only the low 4 bits of each input matter, so out-of-range
values are silently truncated to their low nibble rather than rejected (the
packer is a total function and performs no validation). -/
theorem pack_2xint4_spec (t : IntMat) (i c : ℕ) (x y : ℤ) :
    (pack_2xint4 t).rows = t.rows / 2 ∧
    (pack_2xint4 t).cols = t.cols ∧
    (pack_2xint4 t).entry i c =
      packByte (t.entry (2 * i) c) (t.entry (2 * i + 1) c) ∧
    packByte x y % 16 = x % 16 ∧
    packByte x y % 256 / 16 = y % 16 ∧
    -128 ≤ packByte x y ∧ packByte x y < 128 ∧
    packByte x y = packByte (x % 16) (y % 16) := by
  refine ⟨rfl, rfl, rfl, ?_, ?_, ?_, ?_, ?_⟩ <;> (unfold packByte toInt8; omega)

/-- C6 counterexample: `matmul` launches even when the inner dimensions
disagree.  With a 1×3 contiguous activation and a 5×1 weight the inner
dimensions disagree under either accounting (`3 ≠ 5` dense, `3 ≠ 5 * 2`
packed), yet the host proceeds to launch the JIT kernel rather than failing
before launch. -/
theorem shape_mismatch_unchecked_counterexample :
    matmulHost 1 3 5 1 true false 128 256 =
      HostResult.launched (Dispatch.jitKernel (cdiv 1 128 * cdiv 1 256)
        [3, 1, 1, 1, 1, 1] false) ∧
    (3 : ℕ) ≠ 5 ∧ (3 : ℕ) ≠ 5 * 2 :=
  ⟨rfl, by decide, by decide⟩

/-- C6 amended: `matmul` performs no inner-dimension check (the
packing-factor shape assert is commented out) and never reads B's row
count; the only validation before launch is that A is contiguous — a
non-contiguous A fails before launch, and any contiguous A launches
regardless of shape agreement. -/
theorem matmul_validates_contiguity_only (aRows aCols bRows bCols : ℕ)
    (useInt16 : Bool) (BM BN : ℕ) :
    matmulHost aRows aCols bRows bCols true useInt16 BM BN =
      HostResult.launched (matmulDispatch aRows bCols aCols BM BN useInt16) ∧
    matmulHost aRows aCols bRows bCols false useInt16 BM BN =
      HostResult.failed "Matrix A must be contiguous" ∧
    (∀ bRows2 : ℕ, matmulHost aRows aCols bRows2 bCols true useInt16 BM BN =
      matmulHost aRows aCols bRows bCols true useInt16 BM BN) :=
  ⟨rfl, rfl, fun _ => rfl⟩

/-- C7: a program instance writes cell `(m, n)` exactly when the cell is an
in-bounds cell of the instance's own tile (the store mask
`(row < M) & (col < N)` filters the unwrapped store offsets, so the
wraparound load offsets never reach storage); every written cell's flat
row-major address lies inside the `M * N` output buffer; and at any cell
the instance does not write, the buffer is left untouched. -/
theorem store_mask_exact (M N K BM BN BK G pid m n : ℕ) :
    (writesCell M N K BM BN BK G pid m n ↔
      K % BK = 0 ∧ inTile M N BM BN
        (tileCoord (cdiv M BM) (cdiv N BN) G pid).1
        (tileCoord (cdiv M BM) (cdiv N BN) G pid).2 m n) ∧
    (writesCell M N K BM BN BK G pid m n → m * N + n < M * N) ∧
    (¬ writesCell M N K BM BN BK G pid m n →
      ∀ (A B C : ℕ → ℕ → ℚ) (useInt8 : Bool),
        instanceRun A B M N K BM BN BK G useInt8 pid C m n = C m n) := by
  have hiff : writesCell M N K BM BN BK G pid m n ↔
      K % BK = 0 ∧ inTile M N BM BN
        (tileCoord (cdiv M BM) (cdiv N BN) G pid).1
        (tileCoord (cdiv M BM) (cdiv N BN) G pid).2 m n := by
    constructor
    · rintro ⟨hK, ml, hml, nl, hnl, hmv, hnv, hmM, hnN⟩
      exact ⟨hK, by omega, by omega, by omega, by omega, hmM, hnN⟩
    · rintro ⟨hK, h1, h2, h3, h4, hmM, hnN⟩
      exact ⟨hK,
        m - (tileCoord (cdiv M BM) (cdiv N BN) G pid).1 * BM, by omega,
        n - (tileCoord (cdiv M BM) (cdiv N BN) G pid).2 * BN, by omega,
        by omega, by omega, hmM, hnN⟩
  refine ⟨hiff, ?_, ?_⟩
  · rintro ⟨hK, ml, hml, nl, hnl, hmv, hnv, hmM, hnN⟩
    have h1 : m * N + n < (m + 1) * N := by rw [add_one_mul]; omega
    have h2 : (m + 1) * N ≤ M * N := Nat.mul_le_mul_right _ (by omega)
    omega
  · intro hnw A B C useInt8
    exact instanceRun_skips A B M N K BM BN BK G useInt8 pid m n C
      (fun hc => hnw (hiff.mpr hc))

/-- Witness for C7 at a boundary tile: `M = 3`, `N = 5`, `K = 4`,
`BLOCK_M = BLOCK_N = BLOCK_K = 2`, `GROUP_M = 1`, instance 0, cell (1, 1). -/
theorem store_mask_exact_witness :
    (writesCell 3 5 4 2 2 2 1 0 1 1 ↔
      4 % 2 = 0 ∧ inTile 3 5 2 2
        (tileCoord (cdiv 3 2) (cdiv 5 2) 1 0).1
        (tileCoord (cdiv 3 2) (cdiv 5 2) 1 0).2 1 1) ∧
    (writesCell 3 5 4 2 2 2 1 0 1 1 → 1 * 5 + 1 < 3 * 5) ∧
    (¬ writesCell 3 5 4 2 2 2 1 0 1 1 →
      ∀ (A B C : ℕ → ℕ → ℚ) (useInt8 : Bool),
        instanceRun A B 3 5 4 2 2 2 1 useInt8 0 C 1 1 = C 1 1) :=
  store_mask_exact 3 5 4 2 2 2 1 0 1 1

/-- C8: if `K % BLOCK_SIZE_K ≠ 0`, the device assert at the kernel's entry
(line 73, executed before any load, computation or store) fires in every
program instance, so the whole dispatch aborts without any instance storing
anything: the output buffer is left exactly as allocated — no partial
output is produced by any subset of tiles. -/
theorem k_divisibility_launch_fatal (A B C0 : ℕ → ℕ → ℚ)
    (M N K BM BN BK G : ℕ) (useInt8 : Bool) (hK : K % BK ≠ 0) :
    runGrid A B M N K BM BN BK G useInt8 C0 = C0 := by
  unfold runGrid
  funext m n
  exact foldl_no_writer (gridStep A B M N K BM BN BK G useInt8)
    (fun pid => K % BK = 0 ∧ inTile M N BM BN
      (tileCoord (cdiv M BM) (cdiv N BN) G pid).1
      (tileCoord (cdiv M BM) (cdiv N BN) G pid).2 m n) m n
    (fun C pid h => instanceRun_skips A B M N K BM BN BK G useInt8 pid m n C h)
    (List.range (cdiv M BM * cdiv N BN))
    (fun q _ hw => hK hw.1) C0

/-- Witness for C8 at `K = 3`, `BLOCK_SIZE_K = 2` on a 2×2 problem: the
buffer keeps its initial contents. -/
theorem k_divisibility_launch_fatal_witness :
    runGrid (fun _ _ => (1 : ℚ)) (fun _ _ => 1) 2 2 3 1 1 2 1 false
      (fun _ _ => 5) = (fun _ _ => (5 : ℚ)) :=
  k_divisibility_launch_fatal (fun _ _ => (1 : ℚ)) (fun _ _ => 1)
    (fun _ _ => 5) 2 2 3 1 1 2 1 false (by decide)

/-- C9: although the weight-slab load `tl.load(b_ptrs)` carries no mask,
under the precondition `K % BLOCK_SIZE_K = 0` and the row-major strides of
B's `K×N` buffer (`stride_bk = N`, `stride_bn = 1`) every address it reads —
at every row `nl`, column `j` of the slab, on every one of the
`cdiv K BLOCK_SIZE_K` reduction steps, for any `pid_n` — lies inside B's
buffer of `K * N` elements: the column offsets are wrapped modulo `N` and
the K-direction pointer advance stays below `K`. -/
theorem b_load_in_bounds (N BN BK K pidn step j nl : ℕ)
    (hBK : 0 < BK) (hK : K % BK = 0) (hstep : step < cdiv K BK) (hj : j < BK)
    (hN : 0 < N) :
    bLoadAddr N BN BK N 1 pidn step j nl < K * N := by
  unfold bLoadAddr
  have h1 : step * BK + j < K := step_bound hBK hK hstep hj
  have h2 : (pidn * BN + nl) % N < N := Nat.mod_lt _ hN
  have h3 : (step * BK + j) * N + N ≤ K * N := by
    calc (step * BK + j) * N + N = (step * BK + j + 1) * N := by ring
      _ ≤ K * N := Nat.mul_le_mul_right _ (by omega)
  omega

/-- Witness for C9 at `K = 4`, `BLOCK_SIZE_K = 2`, `N = 3`, final reduction
step, out-of-tile `pid_n` and lane indices exercising the modulo wrap. -/
theorem b_load_in_bounds_witness : bLoadAddr 3 2 2 3 1 7 1 1 5 < 4 * 3 :=
  b_load_in_bounds 3 2 2 4 7 1 1 5 (by decide) (by decide) (by decide)
    (by decide) (by decide)

/-- C10: with `use_int16` set, `matmul` never dispatches the autotuned JIT
kernel: it launches the kernel compiled from the fixed absolute path
`/home/dberard/local/scripts/triton/int8mm/int16.ttgir` on the hard-coded
grid `(cdiv M 128 * cdiv N 256, 1, 1)` and passes only the three leading
strides `a.stride(0) = K`, `b.stride(0) = N`, `c.stride(0) = N` (the unit
strides are commented out); moreover any dispatch that does reach
`matmul_kernel` carries `USE_INT8_WEIGHT = false`, so the
`USE_INT8_WEIGHT` branch is never exercised. -/
theorem int16_path_dispatch (M N K BM BN : ℕ) :
    matmulDispatch M N K BM BN true =
      Dispatch.precompiled "/home/dberard/local/scripts/triton/int8mm/int16.ttgir"
        (cdiv M 128 * cdiv N 256) 1 1 [K, N, N] ∧
    (∀ g s w, matmulDispatch M N K BM BN true ≠ Dispatch.jitKernel g s w) ∧
    (∀ b g s w, matmulDispatch M N K BM BN b = Dispatch.jitKernel g s w →
      w = false) := by
  refine ⟨rfl, ?_, ?_⟩
  · intro g s w h
    simp [matmulDispatch] at h
  · intro b g s w h
    cases b
    · rw [show matmulDispatch M N K BM BN false =
        Dispatch.jitKernel (cdiv M BM * cdiv N BN) [K, 1, N, 1, N, 1] false
        from rfl] at h
      injection h with h1 h2 h3
      exact h3.symm
    · exact absurd h (by simp [matmulDispatch])

/-- Witness for C10 at `M = 256`, `N = 512`, `K = 64` with the active
autotune block sizes. -/
theorem int16_path_dispatch_witness :
    matmulDispatch 256 512 64 128 256 true =
      Dispatch.precompiled "/home/dberard/local/scripts/triton/int8mm/int16.ttgir"
        (cdiv 256 128 * cdiv 512 256) 1 1 [64, 512, 512] ∧
    (∀ g s w, matmulDispatch 256 512 64 128 256 true ≠
      Dispatch.jitKernel g s w) ∧
    (∀ b g s w, matmulDispatch 256 512 64 128 256 b =
      Dispatch.jitKernel g s w → w = false) :=
  int16_path_dispatch 256 512 64 128 256

end Int4Gemm
